import Mathlib

/-!
Shallow embedding of the SHL assessment-recommendation workflow
(`app/graph/*`, `app/agents/*`) and proofs about its structural policies:
final-count policy, duration filter, rerank fallback, category balance,
enhancement merge and fallback, terminal-state invariants, and
finalization dedup.

External collaborators (LLM calls, vector search, URL fetch, rule-based
regex extractors) are modelled as explicit parameters collected in `Env`;
Python floats are modelled as rationals; Python `None` as `Option`;
Python truthiness on strings, lists and optional ints is modelled
explicitly (`""`, `[]`, `none`/`some 0` are falsy).
-/

/-- Lower-cases a string character-wise (embedding of Python `str.lower()`,
ASCII-faithful). -/
def lowerStr (s : String) : String := ⟨s.data.map Char.toLower⟩

/-- Does `needle` occur as a contiguous segment of `hay`?
Embedding of Python `needle in hay` on lists of characters. -/
def containsSeg (needle : List Char) : List Char → Bool
  | [] => needle.isEmpty
  | c :: t => needle.isPrefixOf (c :: t) || containsSeg needle t

/-- Python `needle in hay` for strings. -/
def strContains (hay needle : String) : Bool := containsSeg needle.data hay.data

/-- Insert `a` into a list assumed sorted descending by key `k`, before the
first element with a strictly smaller key (so equal keys keep their
relative order). -/
def insertDesc {α : Type} (k : α → ℚ) (a : α) : List α → List α
  | [] => [a]
  | b :: t => if k b ≤ k a then a :: b :: t else b :: insertDesc k a t

/-- Stable sort, descending by key `k`: the embedding of Python
`sorted(..., key=k, reverse=True)` / `list.sort(key=k, reverse=True)`
(Python's sort is stable, and a stable descending sort is unique). -/
def sortDescBy {α : Type} (k : α → ℚ) : List α → List α
  | [] => []
  | a :: t => insertDesc k a (sortDescBy k t)

/-! ## Data model (`app/models/schemas.py`, `app/graph/state.py`) -/

/-- `EnhancedQuery` pydantic schema. -/
structure EnhancedQuery where
  original_query : String
  cleaned_query : String
  extracted_skills : List String
  extracted_duration : Option Nat
  extracted_job_levels : List String
  required_test_types : List String
  key_requirements : List String
deriving DecidableEq, Repr

/-- A retrieved assessment dict as produced by the vector store and consumed
by the RAG agent and the output formatter: catalog payload plus transient
scores. A missing/empty URL is modelled as `""` (both are falsy in Python). -/
structure Candidate where
  url : String
  name : String
  description : String
  test_type : List String
  duration : Option Nat
  similarity_score : ℚ
  llm_score : Option ℚ
  llm_reason : Option String
deriving DecidableEq, Repr

/-- One entry of the parsed rerank LLM response. `id` is `none` when the
JSON object has no (integer) `id` key: Python then raises a `TypeError`
at `0 <= idx`, discarding the whole rerank attempt. -/
structure Ranking where
  id : Option Int
  score : Option ℚ
  reason : Option String
deriving DecidableEq, Repr

/-- `IntentClassification` pydantic schema. -/
structure IntentClassification where
  intent : String
  confidence : ℚ
  reasoning : Option String
deriving DecidableEq, Repr

/-- `URLExtractionResult` pydantic schema. -/
structure URLExtractionResult where
  has_url : Bool
  urls : List String
  primary_url : Option String
deriving DecidableEq, Repr

/-- Result dict of `jd_fetcher.fetch_jd_from_url`. -/
structure FetchResult where
  success : Bool
  jd_text : Option String
  error_message : Option String
deriving DecidableEq, Repr

/-- `GraphState` (`app/graph/state.py`), minus the diagnostic metadata
fields (`processing_steps`, `agent_outputs`) which no claim concerns. -/
structure GraphState where
  query : String
  session_id : String
  intent : Option String
  intent_confidence : Option ℚ
  has_url : Bool
  extracted_urls : List String
  jd_text : Option String
  jd_extraction_success : Bool
  enhanced_query : Option EnhancedQuery
  retrieved_assessments : List Candidate
  final_recommendations : List Candidate
  general_answer : Option String
  error_message : Option String
deriving DecidableEq, Repr

/-- `create_initial_state` (`app/graph/state.py`). -/
def create_initial_state (query session_id : String) : GraphState :=
  { query := query
    session_id := session_id
    intent := none
    intent_confidence := none
    has_url := false
    extracted_urls := []
    jd_text := none
    jd_extraction_success := false
    enhanced_query := none
    retrieved_assessments := []
    final_recommendations := []
    general_answer := none
    error_message := none }

/-- Fixed outcomes of all external collaborator calls made during one
pipeline run (LLM calls, vector search, URL regex, JD fetch, rule-based
extractors): the pipeline is deterministic given these. -/
structure Env where
  classify : Except String IntentClassification
  extract_urls : String → List String
  urlLLM : Except String URLExtractionResult
  fetch : String → FetchResult
  ruleSkills : String → List String
  ruleDuration : String → Option Nat
  ruleJobLevels : String → List String
  enhanceLLM : Except String EnhancedQuery
  search : String → Nat → List Candidate
  rerankLLM : Except String (List Ranking)
  generalAnswer : Except String String

/-! ## Configuration (`app/config.py`) -/

def RAG_TOP_K : Nat := 15
def RAG_FINAL_SELECT_MIN : Nat := 5
def RAG_FINAL_SELECT_MAX : Nat := 10

/-! ## RAG agent (`app/agents/rag_agent.py`) -/

/-- `RAGAgent._build_search_query`. -/
def build_search_query (eq : EnhancedQuery) : String :=
  let parts := [eq.cleaned_query]
  let parts := if eq.extracted_skills ≠ [] then
    parts ++ ["Required skills: " ++ String.intercalate ", " (eq.extracted_skills.take 10)]
    else parts
  let parts := if eq.required_test_types ≠ [] then
    parts ++ ["Test types needed: " ++ String.intercalate ", " eq.required_test_types]
    else parts
  let parts := if eq.key_requirements ≠ [] then
    parts ++ ["Key requirements: " ++ String.intercalate ", " (eq.key_requirements.take 5)]
    else parts
  String.intercalate " | " parts

/-- `RAGAgent._filter_by_duration`: keep an assessment iff its duration is
unknown or within the cap. -/
def filter_by_duration (assessments : List Candidate) (max_duration : Nat) : List Candidate :=
  assessments.filter (fun a =>
    match a.duration with
    | none => true
    | some d => d ≤ max_duration)

/-- Sort key of the rerank fallback: `x.get('similarity_score', 0)`. -/
def simKey (a : Candidate) : ℚ := a.similarity_score

/-- The deterministic rerank fallback (`except` branch of
`RAGAgent._rerank_with_llm`): original candidates sorted by similarity
score descending, truncated to `max_select`. -/
def rerank_fallback (assessments : List Candidate) : List Candidate :=
  (sortDescBy simKey assessments).take RAG_FINAL_SELECT_MAX

/-- The ranking-application loop of `RAGAgent._rerank_with_llm`: entries
with an out-of-range id are skipped, in-range entries copy the assessment
and attach `llm_score` (default `0.5`) and `llm_reason` (default `""`). -/
def apply_rankings (assessments : List Candidate) (acc : List Candidate) :
    List Ranking → List Candidate
  | [] => acc
  | r :: rest =>
    match r.id with
    | none => apply_rankings assessments acc rest
    | some idx =>
      if 0 ≤ idx ∧ idx < (assessments.length : Int) then
        match assessments.get? idx.toNat with
        | some a =>
          apply_rankings assessments
            (acc ++ [{ a with llm_score := some (r.score.getD (1/2)),
                              llm_reason := some (r.reason.getD "") }]) rest
        | none => apply_rankings assessments acc rest
      else apply_rankings assessments acc rest

/-- `RAGAgent._rerank_with_llm`, with the LLM call-and-parse outcome as a
parameter. A response containing an entry without integer id raises in
Python (`0 <= None`), so the whole attempt is discarded and the fallback
used; likewise when the call or JSON parse fails (`Except.error`). -/
def rerank_with_llm (assessments : List Candidate)
    (llm : Except String (List Ranking)) : List Candidate :=
  if assessments.length ≤ RAG_FINAL_SELECT_MAX then assessments
  else
    match llm with
    | Except.ok rankings =>
      if rankings.all (fun r => r.id.isSome) then
        apply_rankings assessments [] rankings
      else rerank_fallback assessments
    | Except.error _ => rerank_fallback assessments

/-- Case-insensitive bidirectional substring match between a required test
type and a group label (`test_type.lower() in group_type.lower() or
group_type.lower() in test_type.lower()`). -/
def tyMatch (required groupTy : String) : Bool :=
  strContains (lowerStr groupTy) (lowerStr required) ||
  strContains (lowerStr required) (lowerStr groupTy)

/-- Append assessment `a` to the group of label `t`, creating the group at
the end when absent (Python dict insertion order). -/
def addToGroups (gs : List (String × List Candidate)) (t : String) (a : Candidate) :
    List (String × List Candidate) :=
  match gs with
  | [] => [(t, [a])]
  | (k, v) :: rest =>
    if k = t then (k, v ++ [a]) :: rest else (k, v) :: addToGroups rest t a

/-- Register one assessment under each of its declared test types. -/
def addCandidate (gs : List (String × List Candidate)) (a : Candidate) :
    List (String × List Candidate) :=
  a.test_type.foldl (fun gs t => addToGroups gs t a) gs

/-- The `type_groups` dict of `RAGAgent._apply_balance_logic`, as an
insertion-ordered association list. -/
def buildGroups (assessments : List Candidate) : List (String × List Candidate) :=
  assessments.foldl addCandidate []

/-- Append `a` unless its url was already selected (`used_urls` is kept in
lockstep with `balanced`, so it is read off as `balanced.map url`). -/
def appendIfNewUrl (balanced : List Candidate) (a : Candidate) : List Candidate :=
  if a.url ∈ balanced.map Candidate.url then balanced else balanced ++ [a]

/-- First pass of `_apply_balance_logic` for one required test type: find
the first group whose label matches; if the found label is truthy (Python
`if matching_type`), take up to `target` of its members, deduplicating by
url. -/
def balancePass1Step (groups : List (String × List Candidate)) (target : Nat)
    (balanced : List Candidate) (required_ty : String) : List Candidate :=
  match groups.find? (fun kg => tyMatch required_ty kg.1) with
  | some kg =>
    if kg.1 ≠ "" then (kg.2.take target).foldl appendIfNewUrl balanced
    else balanced
  | none => balanced

/-- First pass of `_apply_balance_logic` over all required test types. -/
def balancePass1 (groups : List (String × List Candidate)) (target : Nat)
    (required : List String) : List Candidate :=
  required.foldl (balancePass1Step groups target) []

/-- Sort key of the second balance pass:
`x.get('llm_score', x.get('similarity_score', 0))`. -/
def balanceKey (a : Candidate) : ℚ := a.llm_score.getD a.similarity_score

/-- Second pass: fill remaining slots up to `max_select` with the
highest-scoring not-yet-used candidates. -/
def balancePass2Fill (balanced : List Candidate) : List Candidate → List Candidate
  | [] => balanced
  | a :: rest =>
    if RAG_FINAL_SELECT_MAX ≤ balanced.length then balanced
    else balancePass2Fill (balanced ++ [a]) rest

/-- `RAGAgent._apply_balance_logic`. -/
def apply_balance_logic (assessments : List Candidate) (required_test_types : List String) :
    List Candidate :=
  if required_test_types.length ≤ 1 then assessments
  else
    let groups := buildGroups assessments
    let target := max 2 (RAG_FINAL_SELECT_MAX / required_test_types.length)
    let balanced := balancePass1 groups target required_test_types
    let remaining := assessments.filter (fun a => a.url ∉ balanced.map Candidate.url)
    balancePass2Fill balanced (sortDescBy balanceKey remaining)

/-- The branch of `RAGAgent._determine_final_count` reached when the
duration constraint does not decide the count. -/
def default_final_count (eq : EnhancedQuery) : Nat :=
  if eq.required_test_types.length > 1 then RAG_FINAL_SELECT_MAX
  else min 8 RAG_FINAL_SELECT_MAX

/-- `RAGAgent._determine_final_count`. Note `if enhanced_query.extracted_duration:`
is Python truthiness: both `None` and `0` skip the duration rules. -/
def determine_final_count (eq : EnhancedQuery) : Nat :=
  match eq.extracted_duration with
  | some d =>
    if d ≠ 0 then
      if d ≤ 30 then RAG_FINAL_SELECT_MIN
      else if d ≤ 60 then min 7 RAG_FINAL_SELECT_MAX
      else default_final_count eq
    else default_final_count eq
  | none => default_final_count eq

/-- Candidates remaining after step 2 of `RAGAgent.execute` (the duration
filter runs only when `extracted_duration` is truthy). -/
def rag_retrieved2 (env : Env) (eq : EnhancedQuery) : List Candidate :=
  let retrieved := env.search (build_search_query eq) RAG_TOP_K
  match eq.extracted_duration with
  | some d => if d ≠ 0 then filter_by_duration retrieved d else retrieved
  | none => retrieved

/-- Candidates after steps 3 and 4 of `RAGAgent.execute` (rerank, then
balance when more than one test type is required). -/
def rag_balanced (env : Env) (eq : EnhancedQuery) : List Candidate :=
  let reranked := rerank_with_llm (rag_retrieved2 env eq) env.rerankLLM
  if eq.required_test_types.length > 1 then
    apply_balance_logic reranked eq.required_test_types
  else reranked

/-- `RAGAgent.execute`. -/
def rag_execute (env : Env) (state : GraphState) : GraphState :=
  match state.enhanced_query with
  | none => { state with error_message := some "No enhanced query available for RAG" }
  | some eq =>
    if (env.search (build_search_query eq) RAG_TOP_K).isEmpty then
      { state with retrieved_assessments := []
                   final_recommendations := []
                   error_message := some "No matching assessments found" }
    else
      { state with retrieved_assessments := rag_retrieved2 env eq
                   final_recommendations :=
                     (rag_balanced env eq).take (determine_final_count eq) }

/-! ## JD processor agent (`app/agents/jd_processor_agent.py`) -/

def technical_keywords : List String :=
  ["python", "java", "javascript", "sql", "c++", "c#", "programming",
   "coding", "software", "developer", "engineering", "technical"]

def soft_keywords : List String :=
  ["communication", "teamwork", "leadership", "collaboration",
   "interpersonal", "management", "problem solving"]

/-- `JDProcessorAgent._infer_test_types`: the fixed skill-to-test-type
heuristic used by the enhancement fallback. -/
def infer_test_types (skills : List String) : List String :=
  let skills_text := lowerStr (String.intercalate " " skills)
  let test_types :=
    (if technical_keywords.any (fun k => strContains skills_text k)
     then ["Knowledge & Skills"] else []) ++
    (if soft_keywords.any (fun k => strContains skills_text k)
     then ["Personality & Behavior"] else [])
  if test_types.isEmpty && !skills.isEmpty then
    ["Knowledge & Skills", "Personality & Behavior"]
  else test_types

/-- `list(set(a + b))` on skill lists: a deduplicated union (Python's set
iteration order is hash-dependent, so only the set of elements is
specified; `List.dedup` is one representative order). Equality of strings
is exact, hence case-sensitive. -/
def merge_skills (baseline llm : List String) : List String :=
  (baseline ++ llm).dedup

/-- `enhanced.extracted_duration or baseline_duration`: Python `or` takes
the second operand when the first is falsy (`None` or `0`). -/
def merge_duration (llm baseline : Option Nat) : Option Nat :=
  match llm with
  | some d => if d ≠ 0 then some d else baseline
  | none => baseline

/-- `state.get('jd_text') or state.get('query', '')`. -/
def effective_jd_text (state : GraphState) : String :=
  match state.jd_text with
  | some t => if t ≠ "" then t else state.query
  | none => state.query

/-- `JDProcessorAgent.execute`, with the structured-output LLM call as a
parameter and the rule-based extractors (`app/utils/helpers.py`, regex and
keyword dictionaries) as deterministic collaborator functions in `Env`. -/
def jd_processor_execute (env : Env) (state : GraphState) : GraphState :=
  let jd_text := effective_jd_text state
  if jd_text = "" then { state with error_message := some "No text to process" }
  else
    let baseline_skills := env.ruleSkills jd_text
    let baseline_duration := env.ruleDuration jd_text
    let baseline_job_levels := env.ruleJobLevels jd_text
    match env.enhanceLLM with
    | Except.ok enhanced =>
      let final_enhanced : EnhancedQuery :=
        { original_query := enhanced.original_query
          cleaned_query := enhanced.cleaned_query
          extracted_skills := merge_skills baseline_skills enhanced.extracted_skills
          extracted_duration := merge_duration enhanced.extracted_duration baseline_duration
          extracted_job_levels := merge_skills baseline_job_levels enhanced.extracted_job_levels
          required_test_types := enhanced.required_test_types
          key_requirements := enhanced.key_requirements }
      { state with enhanced_query := some final_enhanced }
    | Except.error e =>
      let fallback_enhanced : EnhancedQuery :=
          { original_query := jd_text
            cleaned_query := jd_text.take 500
            extracted_skills := baseline_skills
            extracted_duration := baseline_duration
            extracted_job_levels := baseline_job_levels
            required_test_types := infer_test_types baseline_skills
            key_requirements := baseline_skills.take 5 }
      { state with enhanced_query := some fallback_enhanced
                   error_message := some ("JD processing error (using fallback): " ++ e) }

/-! ## Supervisor agent (`app/agents/supervisor_agent.py`) -/

def jd_keywords : List String :=
  ["hire", "hiring", "recruit", "looking for", "need", "seeking",
   "developer", "engineer", "manager", "analyst", "job description",
   "jd", "role", "position", "candidate", "assess", "test"]

def general_keywords : List String :=
  ["what is", "tell me", "explain", "describe", "how does",
   "assessment", "work", "use", "available"]

/-- `SupervisorAgent._fallback_classification`. -/
def fallback_classification (query : String) : String :=
  let query_lower := lowerStr query
  if jd_keywords.any (fun k => strContains query_lower k) then "jd_query"
  else if general_keywords.any (fun k => strContains query_lower k) then "general"
  else "jd_query"

/-- `SupervisorAgent.execute`. An empty query short-circuits, but note it
records `error_message = 'Empty query'`; the LLM failure path records a
fallback note as well. -/
def supervisor_execute (env : Env) (state : GraphState) : GraphState :=
  if state.query = "" then
    { state with intent := some "out_of_context"
                 intent_confidence := some 1
                 error_message := some "Empty query" }
  else
    match env.classify with
    | Except.ok result =>
      { state with intent := some result.intent
                   intent_confidence := some result.confidence }
    | Except.error e =>
      { state with intent := some (fallback_classification state.query)
                   intent_confidence := some (1/2)
                   error_message := some ("Classification fallback used: " ++ e) }

/-! ## JD extractor agent (`app/agents/jd_extractor_agent.py`) -/

/-- Shared result handling after a fetch attempt in `JDExtractorAgent.execute`. -/
def extractor_after_fetch (state : GraphState) (urls : List String)
    (fr : FetchResult) : GraphState :=
  if fr.success then
    { state with has_url := true
                 extracted_urls := urls
                 jd_text := fr.jd_text
                 jd_extraction_success := true }
  else
    { state with has_url := true
                 extracted_urls := urls
                 jd_extraction_success := false
                 error_message := fr.error_message }

/-- `JDExtractorAgent.execute`: regex URL extraction first, LLM URL
extraction as fallback, fetch from the primary URL. -/
def jd_extractor_execute (env : Env) (state : GraphState) : GraphState :=
  match env.extract_urls state.query with
  | u :: rest =>
    extractor_after_fetch state (u :: rest) (env.fetch u)
  | [] =>
    match env.urlLLM with
    | Except.ok result =>
      if result.has_url ∧ result.urls ≠ [] then
        let primary :=
          match result.primary_url with
          | some p => if p ≠ "" then p else result.urls.headD ""
          | none => result.urls.headD ""
        extractor_after_fetch state result.urls (env.fetch primary)
      else
        { state with has_url := false
                     extracted_urls := []
                     jd_extraction_success := false }
    | Except.error e =>
      { state with has_url := false
                   extracted_urls := []
                   jd_extraction_success := false
                   error_message := some ("JD extraction error: " ++ e) }

/-! ## General query agent (`app/agents/general_query_agent.py`) -/

/-- The fixed fallback answer of `GeneralQueryAgent.execute`. -/
def general_fallback_answer : String :=
  "I apologize, but I encountered an error processing your question. " ++
  "Please try rephrasing your question or ask about:\n" ++
  "- How the recommendation system works\n" ++
  "- Specific SHL assessments\n" ++
  "- Different types of tests available\n" ++
  "- How to use this system"

/-- `GeneralQueryAgent.execute`, with the FAQ/LLM answer composition as one
collaborator outcome. -/
def general_execute (env : Env) (state : GraphState) : GraphState :=
  if state.query = "" then
    { state with general_answer := some "Please provide a question."
                 error_message := some "Empty query" }
  else
    match env.generalAnswer with
    | Except.ok answer => { state with general_answer := some answer }
    | Except.error e =>
      { state with general_answer := some general_fallback_answer
                   error_message := some ("General query error: " ++ e) }

/-! ## Graph nodes and edges (`app/graph/nodes.py`, `app/graph/edges.py`) -/

/-- `OUT_OF_CONTEXT_RESPONSE` (`app/prompts/general_query_prompts.py`). -/
def OUT_OF_CONTEXT_RESPONSE : String :=
  "I appreciate your question, but I\x27m specifically designed to help with SHL assessment recommendations and queries related to hiring and talent evaluation.\n\nI can help you with:\n- Recommending assessments based on job descriptions\n- Explaining different types of SHL assessments\n- Answering questions about specific tests\n- Understanding how to use this recommendation system\n\nPlease feel free to ask me anything related to assessments or hiring needs!"

/-- `end_node`: emits the fixed out-of-context redirect. -/
def end_node (state : GraphState) : GraphState :=
  { state with general_answer := some OUT_OF_CONTEXT_RESPONSE }

/-- `error_node` (wired into the graph but no edge leads to it). -/
def error_node (state : GraphState) : GraphState :=
  let msg := "I apologize, but I encountered an issue processing your request: " ++
       (state.error_message.getD "Unknown error occurred") ++
       "\n\nPlease try:\n- Rephrasing your query\n- Providing more details about your hiring needs\n- Checking if any URLs are accessible\n- Starting a new query"
  { state with general_answer := some msg }

/-- The URL-dedup loop body of `format_output_node` (`seen_urls` is kept in
lockstep with the output, so it is read off as `acc.map url`). -/
def dedupFold (acc : List Candidate) : List Candidate → List Candidate
  | [] => acc
  | a :: t =>
    if a.url ≠ "" ∧ a.url ∉ acc.map Candidate.url then dedupFold (acc ++ [a]) t
    else dedupFold acc t

/-- URL dedup of `format_output_node`: keeps the first occurrence of each
non-empty url, drops items with a missing/empty url. -/
def dedupByUrl (l : List Candidate) : List Candidate := dedupFold [] l

/-- `format_output_node`: a no-op on a falsy (empty) recommendation list,
otherwise dedups by url. -/
def format_output_node (state : GraphState) : GraphState :=
  if state.final_recommendations.isEmpty then state
  else { state with final_recommendations := dedupByUrl state.final_recommendations }

/-- `route_by_intent` (`app/graph/edges.py`): the key `intent` is always
present in the state dict, so `state.get('intent', 'jd_query')` returns the
stored value (possibly `None`); anything other than `jd_query`/`general`
routes to `end`. -/
def route_by_intent (state : GraphState) : String :=
  match state.intent with
  | some i => if i = "jd_query" then "input_check" else if i = "general" then "general" else "end"
  | none => "end"

/-- `has_url` (`app/graph/edges.py`). -/
def has_url_edge (env : Env) (state : GraphState) : String :=
  if (env.extract_urls state.query).isEmpty then "processor" else "extractor"

/-- The stage the supervisor's intent routing selects (`route_by_intent`):
the JD path (input check, optional extractor, processor, rag), the general
path, or the out-of-context path (`input_check_node` itself is a
pass-through decision point). -/
def route_stage (env : Env) (s1 : GraphState) : GraphState :=
  match route_by_intent s1 with
  | "input_check" =>
    rag_execute env (jd_processor_execute env
      (if has_url_edge env s1 = "extractor" then jd_extractor_execute env s1 else s1))
  | "general" => general_execute env s1
  | _ => end_node s1

/-- The compiled workflow of `create_workflow` (`app/graph/workflow.py`):
supervisor, intent routing, then the selected stage; every path ends in
`format_output_node`. -/
def runWorkflow (env : Env) (query session_id : String) : GraphState :=
  format_output_node (route_stage env (supervisor_execute env (create_initial_state query session_id)))

/-! ## Specification-side definitions (for refinement comparisons) -/

/-- The Step E policy table exactly as the specification states it:
`duration_cap_minutes` "set" is read as `isSome`, with no exception for a
zero value. -/
def spec_claimed_final_count (eq : EnhancedQuery) : Nat :=
  match eq.extracted_duration with
  | some d =>
    if d ≤ 30 then RAG_FINAL_SELECT_MIN
    else if d ≤ 60 then min 7 RAG_FINAL_SELECT_MAX
    else default_final_count eq
  | none => default_final_count eq

/-- The amended Step E policy table: a duration cap of `0` is falsy in
Python and behaves as if no cap were set. -/
def spec_amended_final_count (eq : EnhancedQuery) : Nat :=
  match eq.extracted_duration with
  | some d =>
    if 1 ≤ d ∧ d ≤ 30 then RAG_FINAL_SELECT_MIN
    else if 31 ≤ d ∧ d ≤ 60 then min 7 RAG_FINAL_SELECT_MAX
    else default_final_count eq
  | none => default_final_count eq

/-- The merged skills field as the specification describes it:
case-normalized, deduplicated set union of both extractors' lists. -/
def spec_merged_skills (baseline llm : List String) : List String :=
  ((baseline ++ llm).map lowerStr).dedup

/-- Does a candidate belong to a required category, per the loose matching
semantics (case-insensitive bidirectional substring match between the
required name and any declared category label)? -/
def memberOfCategory (required : String) (a : Candidate) : Prop :=
  ∃ t ∈ a.test_type, tyMatch required t = true

instance (required : String) (a : Candidate) : Decidable (memberOfCategory required a) := by
  unfold memberOfCategory; infer_instance

/-- Is the `general_answer` field meaningfully populated (a non-empty string)? -/
def answer_nonempty (s : GraphState) : Bool :=
  match s.general_answer with
  | some t => t ≠ ""
  | none => false

/-- How many of the three terminal outputs are meaningfully populated. -/
def populated_count (s : GraphState) : Nat :=
  (if s.final_recommendations.isEmpty then 0 else 1) +
  (if answer_nonempty s then 1 else 0) +
  (if s.error_message.isSome then 1 else 0)

/-- The terminal-state invariant exactly as the specification states it:
exactly one output populated, except the allowed no-match case (empty
recommendations, nothing else populated, no error). -/
def spec_terminal_invariant (s : GraphState) : Prop :=
  populated_count s = 1 ∨
  (s.final_recommendations = [] ∧ answer_nonempty s = false ∧ s.error_message = none)

instance (s : GraphState) : Decidable (spec_terminal_invariant s) := by
  unfold spec_terminal_invariant; infer_instance

/-! ## Concrete instances used by witnesses and counterexamples -/

/-- Shorthand for a candidate carrying only the fields the claims exercise. -/
def mkCand (u : String) (tys : List String) (s : ℚ) : Candidate :=
  { url := u, name := u, description := "", test_type := tys, duration := none,
    similarity_score := s, llm_score := none, llm_reason := none }

/-- An environment in which every collaborator is down and every
deterministic extractor finds nothing. -/
def envDown : Env :=
  { classify := Except.error "llm down"
    extract_urls := fun _ => []
    urlLLM := Except.error "llm down"
    fetch := fun _ => { success := false, jd_text := none, error_message := none }
    ruleSkills := fun _ => []
    ruleDuration := fun _ => none
    ruleJobLevels := fun _ => []
    enhanceLLM := Except.error "llm down"
    search := fun _ _ => []
    rerankLLM := Except.error "llm down"
    generalAnswer := Except.error "llm down" }

/-- An enhanced query whose extracted duration is literally `0` minutes
(admitted by the `Optional[int]` schema). -/
def eqDurationZero : EnhancedQuery :=
  { original_query := "q", cleaned_query := "q", extracted_skills := [],
    extracted_duration := some 0, extracted_job_levels := [],
    required_test_types := [], key_requirements := [] }

/-- Candidate pool in which required types `x` and `y` each have a member,
but a candidate declaring an empty-string test type creates a group whose
label substring-matches every required type and is then discarded as falsy,
so the balance pass selects nothing for `x` and `y` and score filling
drowns them out. -/
def balanceCex : List Candidate :=
  [mkCand "c0" [""] 0, mkCand "c1" ["x"] 0, mkCand "c2" ["y"] 0,
   mkCand "d1" ["zzz"] 100, mkCand "d2" ["zzz"] 99, mkCand "d3" ["zzz"] 98,
   mkCand "d4" ["zzz"] 97, mkCand "d5" ["zzz"] 96, mkCand "d6" ["zzz"] 95,
   mkCand "d7" ["zzz"] 94, mkCand "d8" ["zzz"] 93, mkCand "d9" ["zzz"] 92,
   mkCand "d10" ["zzz"] 91]

/-- A well-behaved pool for the balance guarantee: distinct urls, no empty
labels, both required categories represented. -/
def balanceOk : List Candidate :=
  [mkCand "k1" ["Knowledge & Skills"] 90, mkCand "k2" ["Knowledge & Skills"] 85,
   mkCand "p1" ["Personality & Behavior"] 40, mkCand "n1" ["Simulations"] 80]

/-- Eleven candidates (more than `max_select`), to exercise the rerank path. -/
def elevenCands : List Candidate :=
  (List.range 11).map (fun i => mkCand (toString i) ["T"] i)

/-- An environment that produces a successful retrieval run: intent
`jd_query`, no URLs, model enhancement succeeds with a single required test
type and no duration cap, search returns three candidates. -/
def envRetrieval : Env :=
  { envDown with
    classify := Except.ok { intent := "jd_query", confidence := 9/10, reasoning := none }
    enhanceLLM := Except.ok
      { original_query := "hiring a python developer"
        cleaned_query := "python developer"
        extracted_skills := ["python"]
        extracted_duration := none
        extracted_job_levels := []
        required_test_types := ["Knowledge & Skills"]
        key_requirements := [] }
    search := fun _ _ =>
      [mkCand "a" ["Knowledge & Skills"] 9, mkCand "b" ["Knowledge & Skills"] 8,
       mkCand "c" ["Simulations"] 7] }

/-! ## Helper lemmas: stable descending sort -/

theorem insertDesc_perm {α : Type} (k : α → ℚ) (a : α) (l : List α) :
    (insertDesc k a l).Perm (a :: l) := by
  induction l with
  | nil => simp [insertDesc]
  | cons b t ih =>
    by_cases h : k b ≤ k a
    · simp [insertDesc, h]
    · simp only [insertDesc, if_neg h]
      exact (ih.cons b).trans (List.Perm.swap a b t)

theorem sortDescBy_perm {α : Type} (k : α → ℚ) (l : List α) :
    (sortDescBy k l).Perm l := by
  induction l with
  | nil => exact List.Perm.refl _
  | cons a t ih => exact (insertDesc_perm k a _).trans (ih.cons a)

theorem insertDesc_sorted {α : Type} (k : α → ℚ) (a : α) (l : List α)
    (h : l.Pairwise (fun x y => k y ≤ k x)) :
    (insertDesc k a l).Pairwise (fun x y => k y ≤ k x) := by
  induction l with
  | nil => simp [insertDesc]
  | cons b t ih =>
    obtain ⟨hb, ht⟩ := List.pairwise_cons.mp h
    by_cases hba : k b ≤ k a
    · simp only [insertDesc, if_pos hba]
      refine List.pairwise_cons.mpr ⟨?_, h⟩
      intro y hy
      rcases List.mem_cons.mp hy with rfl | hy'
      · exact hba
      · exact le_trans (hb y hy') hba
    · simp only [insertDesc, if_neg hba]
      refine List.pairwise_cons.mpr ⟨?_, ih ht⟩
      intro y hy
      have hy' : y ∈ a :: t := (insertDesc_perm k a t).mem_iff.mp hy
      rcases List.mem_cons.mp hy' with rfl | hy''
      · exact le_of_not_le hba
      · exact hb y hy''

theorem sortDescBy_sorted {α : Type} (k : α → ℚ) (l : List α) :
    (sortDescBy k l).Pairwise (fun x y => k y ≤ k x) := by
  induction l with
  | nil => simp [sortDescBy]
  | cons a t ih => exact insertDesc_sorted k a _ ih

/-! ## Helper lemmas: the url-dedup fold of `format_output_node` -/

theorem dedupFold_mono {b : Candidate} :
    ∀ (t acc : List Candidate), b ∈ acc → b ∈ dedupFold acc t := by
  intro t
  induction t with
  | nil => intro acc h; simpa [dedupFold] using h
  | cons a t ih =>
    intro acc h
    simp only [dedupFold]
    split
    · exact ih _ (List.mem_append.mpr (Or.inl h))
    · exact ih _ h

theorem dedupFold_append :
    ∀ (t acc : List Candidate), ∃ s, dedupFold acc t = acc ++ s ∧ s.Sublist t := by
  intro t
  induction t with
  | nil => intro acc; exact ⟨[], by simp [dedupFold]⟩
  | cons a t ih =>
    intro acc
    simp only [dedupFold]
    split
    · obtain ⟨s, hs, hsub⟩ := ih (acc ++ [a])
      exact ⟨a :: s, by simpa using hs, hsub.cons₂ a⟩
    · obtain ⟨s, hs, hsub⟩ := ih acc
      exact ⟨s, hs, hsub.cons a⟩

theorem dedupFold_first :
    ∀ (t acc : List Candidate) (b : Candidate), b ∈ dedupFold acc t →
      b ∈ acc ∨ (t.find? (fun x => x.url == b.url) = some b ∧
        b.url ∉ acc.map Candidate.url ∧ b.url ≠ "") := by
  intro t
  induction t with
  | nil => intro acc b h; exact Or.inl (by simpa [dedupFold] using h)
  | cons a t ih =>
    intro acc b h
    simp only [dedupFold] at h
    by_cases hc : a.url ≠ "" ∧ a.url ∉ acc.map Candidate.url
    · rw [if_pos hc] at h
      rcases ih _ b h with hacc | ⟨hfind, hnotin, hne⟩
      · rcases List.mem_append.mp hacc with h1 | h2
        · exact Or.inl h1
        · have hba : b = a := by simpa using h2
          subst hba
          refine Or.inr ⟨?_, hc.2, hc.1⟩
          simp [List.find?]
      · have hne' : (a.url == b.url) = false := by
          by_contra hcontra
          have : a.url = b.url := by
            have := eq_true_of_ne_false hcontra
            simpa using this
          exact hnotin (by simp [← this])
        refine Or.inr ⟨?_, fun hmem => hnotin (by simpa using Or.inl hmem), hne⟩
        simp [List.find?, hne', hfind]
    · rw [if_neg hc] at h
      rcases ih _ b h with hacc | ⟨hfind, hnotin, hne⟩
      · exact Or.inl hacc
      · have hne' : (a.url == b.url) = false := by
          by_contra hcontra
          have hab : a.url = b.url := by
            have := eq_true_of_ne_false hcontra
            simpa using this
          rcases not_and_or.mp hc with h1 | h2
          · exact hne (hab ▸ (not_not.mp h1))
          · exact hnotin (hab ▸ (not_not.mp h2))
        refine Or.inr ⟨?_, hnotin, hne⟩
        simp [List.find?, hne', hfind]

theorem dedupFold_covers {x : Candidate} :
    ∀ (t acc : List Candidate), x ∈ t → x.url ≠ "" →
      ∃ b ∈ dedupFold acc t, b.url = x.url := by
  intro t
  induction t with
  | nil => intro acc hx _; exact absurd hx (List.not_mem_nil x)
  | cons a t ih =>
    intro acc hx hne
    rcases List.mem_cons.mp hx with rfl | hx'
    · -- x is the head
      simp only [dedupFold]
      by_cases hc : x.url ≠ "" ∧ x.url ∉ acc.map Candidate.url
      · rw [if_pos hc]
        exact ⟨x, dedupFold_mono t _ (by simp), rfl⟩
      · have hmem : x.url ∈ acc.map Candidate.url := by
          rcases not_and_or.mp hc with h1 | h2
          · exact absurd (not_not.mp h1) hne
          · exact not_not.mp h2
        rw [if_neg hc]
        obtain ⟨c, hcmem, hcu⟩ := List.mem_map.mp hmem
        exact ⟨c, dedupFold_mono t acc hcmem, hcu⟩
    · -- x in the tail
      simp only [dedupFold]
      split
      · exact ih _ hx' hne
      · exact ih _ hx' hne

theorem dedupFold_fixed :
    ∀ (t acc : List Candidate), (∀ b ∈ t, b.url ≠ "") →
      ((acc ++ t).map Candidate.url).Nodup → dedupFold acc t = acc ++ t := by
  intro t
  induction t with
  | nil => intro acc _ _; simp [dedupFold]
  | cons a t ih =>
    intro acc hne hnd
    have hcond : a.url ≠ "" ∧ a.url ∉ acc.map Candidate.url := by
      constructor
      · exact hne a (by simp)
      · intro hmem
        have : ¬ (acc.map Candidate.url).Disjoint ((a :: t).map Candidate.url) := by
          intro hdis
          exact hdis hmem (by simp)
        rw [List.map_append, List.nodup_append] at hnd
        exact this hnd.2.2
    simp only [dedupFold, if_pos hcond]
    have := ih (acc ++ [a]) (fun b hb => hne b (by simp [hb]))
      (by simpa using hnd)
    simpa using this

theorem dedupFold_nodup :
    ∀ (t acc : List Candidate), ((acc.map Candidate.url)).Nodup →
      ((dedupFold acc t).map Candidate.url).Nodup := by
  intro t
  induction t with
  | nil => intro acc h; simpa [dedupFold] using h
  | cons a t ih =>
    intro acc h
    simp only [dedupFold]
    split
    · next hc =>
      refine ih _ ?_
      rw [List.map_append, List.nodup_append]
      exact ⟨h, by simp, by intro u hu hu'; simp at hu'; exact hc.2 (hu' ▸ hu)⟩
    · exact ih _ h

/-! ## Helper lemmas: the balance pass of `_apply_balance_logic` -/

theorem addToGroups_sound {pool : List Candidate} {a : Candidate} {t : String}
    (ha : a ∈ pool) (ht : t ∈ a.test_type) :
    ∀ (gs : List (String × List Candidate)),
      (∀ p ∈ gs, ∀ x ∈ p.2, x ∈ pool ∧ p.1 ∈ x.test_type) →
      ∀ p ∈ addToGroups gs t a, ∀ x ∈ p.2, x ∈ pool ∧ p.1 ∈ x.test_type := by
  intro gs
  induction gs with
  | nil =>
    intro _ p hp x hx
    simp only [addToGroups, List.mem_singleton] at hp
    subst hp
    simp only [List.mem_singleton] at hx
    subst hx
    exact ⟨ha, ht⟩
  | cons g rest ih =>
    obtain ⟨k, v⟩ := g
    intro hgs p hp x hx
    simp only [addToGroups] at hp
    by_cases hk : k = t
    · rw [if_pos hk] at hp
      rcases List.mem_cons.mp hp with rfl | hp'
      · rcases List.mem_append.mp hx with hx' | hx'
        · exact hgs (k, v) (by simp) x hx'
        · have : x = a := by simpa using hx'
          subst this
          exact ⟨ha, hk ▸ ht⟩
      · exact hgs p (List.mem_cons_of_mem _ hp') x hx
    · rw [if_neg hk] at hp
      rcases List.mem_cons.mp hp with rfl | hp'
      · exact hgs (k, v) (by simp) x hx
      · exact ih (fun q hq => hgs q (List.mem_cons_of_mem _ hq)) p hp' x hx

theorem addToGroups_ne {a : Candidate} {t : String} :
    ∀ (gs : List (String × List Candidate)),
      (∀ p ∈ gs, p.2 ≠ []) → ∀ p ∈ addToGroups gs t a, p.2 ≠ [] := by
  intro gs
  induction gs with
  | nil =>
    intro _ p hp
    simp only [addToGroups, List.mem_singleton] at hp
    subst hp; simp
  | cons g rest ih =>
    obtain ⟨k, v⟩ := g
    intro hgs p hp
    simp only [addToGroups] at hp
    by_cases hk : k = t
    · rw [if_pos hk] at hp
      rcases List.mem_cons.mp hp with rfl | hp'
      · simp
      · exact hgs p (List.mem_cons_of_mem _ hp')
    · rw [if_neg hk] at hp
      rcases List.mem_cons.mp hp with rfl | hp'
      · exact hgs (k, v) (by simp)
      · exact ih (fun q hq => hgs q (List.mem_cons_of_mem _ hq)) p hp'

theorem addToGroups_key_self {a : Candidate} {t : String} :
    ∀ (gs : List (String × List Candidate)), ∃ p ∈ addToGroups gs t a, p.1 = t := by
  intro gs
  induction gs with
  | nil => exact ⟨(t, [a]), by simp [addToGroups]⟩
  | cons g rest ih =>
    obtain ⟨k, v⟩ := g
    simp only [addToGroups]
    by_cases hk : k = t
    · rw [if_pos hk]
      exact ⟨(k, v ++ [a]), by simp, hk⟩
    · rw [if_neg hk]
      obtain ⟨p, hp, hpt⟩ := ih
      exact ⟨p, List.mem_cons_of_mem _ hp, hpt⟩

theorem addToGroups_key_mono {a : Candidate} {t t' : String} :
    ∀ (gs : List (String × List Candidate)),
      (∃ p ∈ gs, p.1 = t') → ∃ p ∈ addToGroups gs t a, p.1 = t' := by
  intro gs
  induction gs with
  | nil =>
    intro h
    obtain ⟨p, hp, _⟩ := h
    exact absurd hp (List.not_mem_nil p)
  | cons g rest ih =>
    obtain ⟨k, v⟩ := g
    intro h
    obtain ⟨p, hp, hpt⟩ := h
    simp only [addToGroups]
    by_cases hk : k = t
    · rw [if_pos hk]
      rcases List.mem_cons.mp hp with rfl | hp'
      · exact ⟨(k, v ++ [a]), by simp, hpt⟩
      · exact ⟨p, List.mem_cons_of_mem _ hp', hpt⟩
    · rw [if_neg hk]
      rcases List.mem_cons.mp hp with rfl | hp'
      · exact ⟨(k, v), by simp, hpt⟩
      · obtain ⟨q, hq, hqt⟩ := ih ⟨p, hp', hpt⟩
        exact ⟨q, List.mem_cons_of_mem _ hq, hqt⟩

theorem addCandidate_sound {pool : List Candidate} {a : Candidate} (ha : a ∈ pool) :
    ∀ (ts : List String) (gs), (∀ t ∈ ts, t ∈ a.test_type) →
      (∀ p ∈ gs, ∀ x ∈ p.2, x ∈ pool ∧ p.1 ∈ x.test_type) →
      ∀ p ∈ ts.foldl (fun gs t => addToGroups gs t a) gs, ∀ x ∈ p.2,
        x ∈ pool ∧ p.1 ∈ x.test_type := by
  intro ts
  induction ts with
  | nil => intro gs _ hgs; simpa using hgs
  | cons t ts ih =>
    intro gs hts hgs
    simp only [List.foldl_cons]
    exact ih _ (fun u hu => hts u (List.mem_cons_of_mem _ hu))
      (addToGroups_sound ha (hts t (by simp)) gs hgs)

theorem addCandidate_ne {a : Candidate} :
    ∀ (ts : List String) (gs), (∀ p ∈ gs, p.2 ≠ []) →
      ∀ p ∈ ts.foldl (fun gs t => addToGroups gs t a) gs, p.2 ≠ [] := by
  intro ts
  induction ts with
  | nil => intro gs hgs; simpa using hgs
  | cons t ts ih =>
    intro gs hgs
    simp only [List.foldl_cons]
    exact ih _ (addToGroups_ne gs hgs)

theorem addCandidate_key_mono {a : Candidate} {t' : String} :
    ∀ (ts : List String) (gs), (∃ p ∈ gs, p.1 = t') →
      ∃ p ∈ ts.foldl (fun gs t => addToGroups gs t a) gs, p.1 = t' := by
  intro ts
  induction ts with
  | nil => intro gs h; simpa using h
  | cons t ts ih =>
    intro gs h
    simp only [List.foldl_cons]
    exact ih _ (addToGroups_key_mono gs h)

theorem addCandidate_key_self {a : Candidate} {t : String} (ht : t ∈ a.test_type) :
    ∀ (gs), ∃ p ∈ addCandidate gs a, p.1 = t := by
  intro gs
  unfold addCandidate
  obtain ⟨l1, l2, hsplit⟩ := List.append_of_mem ht
  rw [hsplit, List.foldl_append]
  exact addCandidate_key_mono l2 _ (addToGroups_key_self _)

theorem buildGroups_fold_sound {pool : List Candidate} :
    ∀ (l : List Candidate) (gs), (∀ x ∈ l, x ∈ pool) →
      (∀ p ∈ gs, ∀ x ∈ p.2, x ∈ pool ∧ p.1 ∈ x.test_type) →
      ∀ p ∈ l.foldl addCandidate gs, ∀ x ∈ p.2, x ∈ pool ∧ p.1 ∈ x.test_type := by
  intro l
  induction l with
  | nil => intro gs _ hgs; simpa using hgs
  | cons a l ih =>
    intro gs hl hgs
    simp only [List.foldl_cons]
    exact ih _ (fun x hx => hl x (List.mem_cons_of_mem _ hx))
      (addCandidate_sound (hl a (by simp)) a.test_type gs (fun _ h => h) hgs)

theorem buildGroups_sound {assessments : List Candidate} :
    ∀ p ∈ buildGroups assessments, ∀ x ∈ p.2, x ∈ assessments ∧ p.1 ∈ x.test_type :=
  buildGroups_fold_sound assessments [] (fun _ h => h) (by simp)

theorem buildGroups_fold_ne :
    ∀ (l : List Candidate) (gs), (∀ p ∈ gs, p.2 ≠ []) →
      ∀ p ∈ l.foldl addCandidate gs, p.2 ≠ [] := by
  intro l
  induction l with
  | nil => intro gs hgs; simpa using hgs
  | cons a l ih =>
    intro gs hgs
    simp only [List.foldl_cons]
    exact ih _ (addCandidate_ne a.test_type gs hgs)

theorem buildGroups_ne {assessments : List Candidate} :
    ∀ p ∈ buildGroups assessments, p.2 ≠ [] :=
  buildGroups_fold_ne assessments [] (by simp)

theorem buildGroups_fold_key_pres {t : String} :
    ∀ (l : List Candidate) (gs), (∃ p ∈ gs, p.1 = t) →
      ∃ p ∈ l.foldl addCandidate gs, p.1 = t := by
  intro l
  induction l with
  | nil => intro gs h; simpa using h
  | cons b l ih =>
    intro gs h
    simp only [List.foldl_cons]
    exact ih _ (addCandidate_key_mono b.test_type gs h)

theorem buildGroups_fold_key {a : Candidate} {t : String} (ht : t ∈ a.test_type) :
    ∀ (l : List Candidate) (gs), a ∈ l →
      ∃ p ∈ l.foldl addCandidate gs, p.1 = t := by
  intro l
  induction l with
  | nil => intro gs h; exact absurd h (List.not_mem_nil a)
  | cons b l ih =>
    intro gs hmem
    simp only [List.foldl_cons]
    rcases List.mem_cons.mp hmem with rfl | h'
    · exact buildGroups_fold_key_pres l _ (addCandidate_key_self ht gs)
    · exact ih _ h'

theorem buildGroups_key {assessments : List Candidate} {a : Candidate} {t : String}
    (ha : a ∈ assessments) (ht : t ∈ a.test_type) :
    ∃ p ∈ buildGroups assessments, p.1 = t :=
  buildGroups_fold_key ht assessments [] ha

theorem appendIfNewUrl_fold_mono {b : Candidate} :
    ∀ (l bal : List Candidate), b ∈ bal → b ∈ l.foldl appendIfNewUrl bal := by
  intro l
  induction l with
  | nil => intro bal h; simpa using h
  | cons a l ih =>
    intro bal h
    simp only [List.foldl_cons]
    refine ih _ ?_
    unfold appendIfNewUrl
    split
    · exact h
    · exact List.mem_append.mpr (Or.inl h)

theorem appendIfNewUrl_fold_url {x : Candidate} :
    ∀ (l bal : List Candidate), x ∈ l →
      ∃ b ∈ l.foldl appendIfNewUrl bal, b.url = x.url := by
  intro l
  induction l with
  | nil => intro bal h; exact absurd h (List.not_mem_nil x)
  | cons a l ih =>
    intro bal hx
    simp only [List.foldl_cons]
    rcases List.mem_cons.mp hx with rfl | hx'
    · unfold appendIfNewUrl
      by_cases hmem : x.url ∈ bal.map Candidate.url
      · rw [if_pos hmem]
        obtain ⟨c, hcmem, hcu⟩ := List.mem_map.mp hmem
        exact ⟨c, appendIfNewUrl_fold_mono l bal hcmem, hcu⟩
      · rw [if_neg hmem]
        exact ⟨x, appendIfNewUrl_fold_mono l _ (by simp), rfl⟩
    · exact ih _ hx'

theorem appendIfNewUrl_fold_sub :
    ∀ (l bal : List Candidate), ∀ b ∈ l.foldl appendIfNewUrl bal, b ∈ bal ∨ b ∈ l := by
  intro l
  induction l with
  | nil => intro bal b h; exact Or.inl (by simpa using h)
  | cons a l ih =>
    intro bal b h
    simp only [List.foldl_cons] at h
    rcases ih _ b h with h' | h'
    · unfold appendIfNewUrl at h'
      split at h'
      · exact Or.inl h'
      · rcases List.mem_append.mp h' with h'' | h''
        · exact Or.inl h''
        · exact Or.inr (by simp at h''; simp [h''])
    · exact Or.inr (List.mem_cons_of_mem _ h')

theorem balancePass1Step_mono {groups : List (String × List Candidate)} {target : Nat}
    {bal : List Candidate} {r : String} {b : Candidate} (hb : b ∈ bal) :
    b ∈ balancePass1Step groups target bal r := by
  unfold balancePass1Step
  split
  · split
    · exact appendIfNewUrl_fold_mono _ _ hb
    · exact hb
  · exact hb

theorem balancePass1Step_sub {pool : List Candidate}
    {groups : List (String × List Candidate)} {target : Nat}
    (hgs : ∀ p ∈ groups, ∀ x ∈ p.2, x ∈ pool ∧ p.1 ∈ x.test_type)
    (bal : List Candidate) (r : String) :
    ∀ b ∈ balancePass1Step groups target bal r, b ∈ bal ∨ b ∈ pool := by
  intro b hb
  unfold balancePass1Step at hb
  split at hb
  · next kg hfind =>
    split at hb
    · rcases appendIfNewUrl_fold_sub _ _ b hb with h | h
      · exact Or.inl h
      · have hkg : kg ∈ groups := List.mem_of_find?_eq_some hfind
        exact Or.inr (hgs kg hkg b ((List.take_sublist target kg.2).mem h)).1
    · exact Or.inl hb
  · exact Or.inl hb

theorem balancePass1_fold_mono {groups : List (String × List Candidate)} {target : Nat}
    {b : Candidate} :
    ∀ (req : List String) (bal : List Candidate), b ∈ bal →
      b ∈ req.foldl (balancePass1Step groups target) bal := by
  intro req
  induction req with
  | nil => intro bal h; simpa using h
  | cons r req ih =>
    intro bal h
    simp only [List.foldl_cons]
    exact ih _ (balancePass1Step_mono h)

theorem balancePass1_fold_sub {pool : List Candidate}
    {groups : List (String × List Candidate)} {target : Nat}
    (hgs : ∀ p ∈ groups, ∀ x ∈ p.2, x ∈ pool ∧ p.1 ∈ x.test_type) :
    ∀ (req : List String) (bal : List Candidate),
      ∀ b ∈ req.foldl (balancePass1Step groups target) bal, b ∈ bal ∨ b ∈ pool := by
  intro req
  induction req with
  | nil => intro bal b h; exact Or.inl (by simpa using h)
  | cons r req ih =>
    intro bal b h
    simp only [List.foldl_cons] at h
    rcases ih _ b h with h' | h'
    · exact balancePass1Step_sub hgs bal r b h'
    · exact Or.inr h'

theorem balancePass1Step_hits {groups : List (String × List Candidate)} {target : Nat}
    {r : String} {kg : String × List Candidate} {h0 : Candidate}
    (hfind : groups.find? (fun p => tyMatch r p.1) = some kg)
    (hk : ¬ kg.1 = "") (hh : kg.2.head? = some h0) (htarget : target ≠ 0)
    (bal : List Candidate) :
    ∃ b ∈ balancePass1Step groups target bal r, b.url = h0.url := by
  unfold balancePass1Step
  rw [hfind]
  simp only [if_pos hk]
  apply appendIfNewUrl_fold_url
  obtain ⟨t, ht⟩ : ∃ t, kg.2 = h0 :: t := by
    cases hkg2 : kg.2 with
    | nil => rw [hkg2] at hh; simp at hh
    | cons x t =>
      rw [hkg2] at hh
      simp only [List.head?_cons, Option.some.injEq] at hh
      exact ⟨t, by rw [hh]⟩
  rw [ht]
  obtain ⟨m, rfl⟩ := Nat.exists_eq_succ_of_ne_zero htarget
  simp [List.take_succ_cons]

theorem balancePass1_fold_hits {groups : List (String × List Candidate)} {target : Nat}
    {r : String} {kg : String × List Candidate} {h0 : Candidate}
    (hfind : groups.find? (fun p => tyMatch r p.1) = some kg)
    (hk : ¬ kg.1 = "") (hh : kg.2.head? = some h0) (htarget : target ≠ 0) :
    ∀ (req : List String) (bal : List Candidate), r ∈ req →
      ∃ b ∈ req.foldl (balancePass1Step groups target) bal, b.url = h0.url := by
  intro req
  induction req with
  | nil => intro bal h; exact absurd h (List.not_mem_nil r)
  | cons r' req ih =>
    intro bal hr
    simp only [List.foldl_cons]
    rcases List.mem_cons.mp hr with rfl | hr'
    · obtain ⟨b, hb, hbu⟩ := balancePass1Step_hits hfind hk hh htarget bal
      exact ⟨b, balancePass1_fold_mono req _ hb, hbu⟩
    · exact ih _ hr'

theorem balancePass2Fill_mono {b : Candidate} :
    ∀ (l bal : List Candidate), b ∈ bal → b ∈ balancePass2Fill bal l := by
  intro l
  induction l with
  | nil => intro bal h; simpa [balancePass2Fill] using h
  | cons a l ih =>
    intro bal h
    simp only [balancePass2Fill]
    split
    · exact h
    · exact ih _ (List.mem_append.mpr (Or.inl h))

theorem balancePass1_eq (groups : List (String × List Candidate)) (target : Nat)
    (required : List String) :
    balancePass1 groups target required = required.foldl (balancePass1Step groups target) [] :=
  rfl

/-- Claim C2 (amended): for every candidate list with pairwise-distinct urls
and no empty-string category label, and every list of at least two required
categories each having at least one member in the pool (membership via the
case-insensitive bidirectional substring match), the balanced output
contains at least one member of each required category. The per-category
first pass ignores `max_select`, so no capacity proviso is needed. Without
the two added hypotheses the guarantee fails (see the counterexample). -/
theorem balance_guarantee (assessments : List Candidate) (required : List String)
    (hnd : (assessments.map Candidate.url).Nodup)
    (hlab : ∀ a ∈ assessments, ∀ t ∈ a.test_type, t ≠ "")
    (hlen : 2 ≤ required.length)
    (hcov : ∀ r ∈ required, ∃ a ∈ assessments, memberOfCategory r a) :
    ∀ r ∈ required, ∃ b ∈ apply_balance_logic assessments required,
      memberOfCategory r b := by
  intro r hr
  have hlen' : ¬ (required.length ≤ 1) := by omega
  simp only [apply_balance_logic, if_neg hlen']
  obtain ⟨a, ha, hmema⟩ := hcov r hr
  obtain ⟨t, ht, hm⟩ := hmema
  obtain ⟨kg0, hkg0, hk0⟩ := buildGroups_key ha ht
  have hsome : ((buildGroups assessments).find? (fun p => tyMatch r p.1)).isSome = true :=
    List.find?_isSome.mpr ⟨kg0, hkg0, by rw [hk0]; exact hm⟩
  obtain ⟨kg, hfind⟩ := Option.isSome_iff_exists.mp hsome
  have hkgmem : kg ∈ buildGroups assessments := List.mem_of_find?_eq_some hfind
  have hkgmatch := List.find?_some hfind
  have hkgne : kg.2 ≠ [] := buildGroups_ne kg hkgmem
  have hh0 : kg.2.head? = some (kg.2.head hkgne) := List.head?_eq_head hkgne
  have hh0mem : kg.2.head hkgne ∈ kg.2 := List.head_mem hkgne
  have hsound := buildGroups_sound kg hkgmem (kg.2.head hkgne) hh0mem
  have hk : ¬ kg.1 = "" := hlab (kg.2.head hkgne) hsound.1 kg.1 hsound.2
  have htarget : (max 2 (RAG_FINAL_SELECT_MAX / required.length)) ≠ 0 := by
    have h2 := Nat.le_max_left 2 (RAG_FINAL_SELECT_MAX / required.length)
    omega
  obtain ⟨b, hbmem, hburl⟩ :=
    balancePass1_fold_hits hfind hk hh0 htarget required [] hr
  have hbas : b ∈ assessments := by
    rcases balancePass1_fold_sub buildGroups_sound required [] b hbmem with h | h
    · exact absurd h (List.not_mem_nil b)
    · exact h
  have hbeq : b = kg.2.head hkgne :=
    List.inj_on_of_nodup_map hnd hbas hsound.1 hburl
  refine ⟨b, ?_, ⟨kg.1, by rw [hbeq]; exact hsound.2, hkgmatch⟩⟩
  exact balancePass2Fill_mono _ _ (by rw [balancePass1_eq]; exact hbmem)

/-- Claim C2 counterexample: in `balanceCex` each of the two required
categories `x` and `y` has a member in the pool (so the claim as stated
promises representation for both, capacity 10 being ample for 2
categories), yet the balanced output contains no member of `y`: the
empty-label group matches every required name first and is then discarded
as falsy, so score filling selects only `zzz`-typed candidates. -/
theorem balance_guarantee_counterexample :
    2 ≤ (["x", "y"] : List String).length ∧
    (∀ r ∈ (["x", "y"] : List String), ∃ a ∈ balanceCex, memberOfCategory r a) ∧
    (apply_balance_logic balanceCex ["x", "y"]).length = RAG_FINAL_SELECT_MAX ∧
    ∀ b ∈ apply_balance_logic balanceCex ["x", "y"], ¬ memberOfCategory "y" b := by
  decide

/-- Claim C2 witness: the amended guarantee applied to a concrete
well-behaved pool. -/
theorem balance_guarantee_witness :
    ∃ b ∈ apply_balance_logic balanceOk ["Knowledge", "Personality"],
      memberOfCategory "Personality" b :=
  balance_guarantee balanceOk ["Knowledge", "Personality"]
    (by decide) (by decide) (by decide) (by decide) "Personality" (by decide)

/-! ## More concrete instances -/

/-- The enhanced query produced by the successful-enhancement environment. -/
def eqRetrieval : EnhancedQuery :=
  { original_query := "hiring a python developer"
    cleaned_query := "python developer"
    extracted_skills := ["python"]
    extracted_duration := none
    extracted_job_levels := []
    required_test_types := ["Knowledge & Skills"]
    key_requirements := [] }

/-- Eight distinct candidates for a retrieval run that fills the default
final count. -/
def eightCands : List Candidate :=
  (List.range 8).map (fun i => mkCand (toString i) ["Knowledge & Skills"] i)

/-- Environment with a successful enhancement and eight search hits. -/
def envEight : Env :=
  { envDown with
    classify := Except.ok { intent := "jd_query", confidence := 9/10, reasoning := none }
    enhanceLLM := Except.ok eqRetrieval
    search := fun _ _ => eightCands }

/-- A state that already carries the enhanced query (as the processor left it). -/
def stEight : GraphState :=
  { create_initial_state "hiring a python developer" "s" with
    enhanced_query := some eqRetrieval }

/-! ## Claim C1: Step E final-count policy -/

/-- Claim C1 (amended): the final count equals the Step E policy table with
"set" read as Python truthiness (a duration cap of `0` counts as unset);
the count always lies between `min_select` and `max_select`; the engine
returns exactly the first `final_count` balanced candidates, so when enough
candidates survive, the final length equals the policy value. -/
theorem final_count_policy (eq : EnhancedQuery) :
    determine_final_count eq = spec_amended_final_count eq ∧
    RAG_FINAL_SELECT_MIN ≤ determine_final_count eq ∧
    determine_final_count eq ≤ RAG_FINAL_SELECT_MAX ∧
    (∀ (env : Env) (s : GraphState), s.enhanced_query = some eq →
      (env.search (build_search_query eq) RAG_TOP_K).isEmpty = false →
      (rag_execute env s).final_recommendations =
        (rag_balanced env eq).take (determine_final_count eq)) ∧
    (∀ (env : Env), determine_final_count eq ≤ (rag_balanced env eq).length →
      ((rag_balanced env eq).take (determine_final_count eq)).length =
        determine_final_count eq) := by
  obtain ⟨oq, cq, sk, dur, jl, tt, kr⟩ := eq
  refine ⟨?_, ?_, ?_, ?_, ?_⟩
  · cases dur with
    | none => rfl
    | some d =>
      simp only [determine_final_count, spec_amended_final_count]
      by_cases h0 : d = 0
      · subst h0; simp
      · split_ifs <;> first | rfl | omega
  · cases dur with
    | none =>
      simp only [determine_final_count, default_final_count]
      split_ifs <;> decide
    | some d =>
      simp only [determine_final_count, default_final_count]
      split_ifs <;> decide
  · cases dur with
    | none =>
      simp only [determine_final_count, default_final_count]
      split_ifs <;> decide
    | some d =>
      simp only [determine_final_count, default_final_count]
      split_ifs <;> decide
  · intro env s hs hne
    unfold rag_execute
    rw [hs]
    simp [hne]
  · intro env h
    rw [List.length_take]
    exact min_eq_left h

/-- Claim C1 counterexample: for an enhanced query whose duration cap is
literally `0` (set, and `≤ 30`), the spec table demands `min_select = 5`,
but the code treats `0` as falsy and returns the default `min(8, max_select)
= 8`. -/
theorem final_count_policy_counterexample :
    determine_final_count eqDurationZero = 8 ∧
    spec_claimed_final_count eqDurationZero = RAG_FINAL_SELECT_MIN ∧
    determine_final_count eqDurationZero ≠ spec_claimed_final_count eqDurationZero := by
  decide

/-- Claim C1 witness: the policy equality and slice-length fact at a
concrete successful retrieval run. -/
theorem final_count_policy_witness :
    (rag_execute envEight stEight).final_recommendations =
      (rag_balanced envEight eqRetrieval).take (determine_final_count eqRetrieval) ∧
    ((rag_balanced envEight eqRetrieval).take (determine_final_count eqRetrieval)).length =
      determine_final_count eqRetrieval :=
  ⟨(final_count_policy eqRetrieval).2.2.2.1 envEight stEight rfl (by decide),
   (final_count_policy eqRetrieval).2.2.2.2 envEight (by decide)⟩

/-! ## Claim C4: rerank fallback equivalence -/

theorem apply_rankings_origin (as : List Candidate) :
    ∀ (rankings : List Ranking) (acc : List Candidate),
      ∀ b ∈ apply_rankings as acc rankings,
        b ∈ acc ∨ ∃ r ∈ rankings, ∃ i : Int, r.id = some i ∧ 0 ≤ i ∧
          i < (as.length : Int) ∧ ∃ a', as.get? i.toNat = some a' ∧
            b = { a' with llm_score := some (r.score.getD (1/2)),
                          llm_reason := some (r.reason.getD "") } := by
  intro rankings
  induction rankings with
  | nil => intro acc b h; exact Or.inl (by simpa [apply_rankings] using h)
  | cons r rest ih =>
    intro acc b h
    have push : ∀ (acc' : List Candidate), b ∈ apply_rankings as acc' rest →
        (b ∈ acc' → b ∈ acc ∨ ∃ r' ∈ r :: rest, ∃ i : Int, r'.id = some i ∧ 0 ≤ i ∧
          i < (as.length : Int) ∧ ∃ a', as.get? i.toNat = some a' ∧
            b = { a' with llm_score := some (r'.score.getD (1/2)),
                          llm_reason := some (r'.reason.getD "") }) →
        b ∈ acc ∨ ∃ r' ∈ r :: rest, ∃ i : Int, r'.id = some i ∧ 0 ≤ i ∧
          i < (as.length : Int) ∧ ∃ a', as.get? i.toNat = some a' ∧
            b = { a' with llm_score := some (r'.score.getD (1/2)),
                          llm_reason := some (r'.reason.getD "") } := by
      intro acc' hmem hacc
      rcases ih acc' b hmem with h' | ⟨r', hr', rest'⟩
      · exact hacc h'
      · exact Or.inr ⟨r', List.mem_cons_of_mem _ hr', rest'⟩
    simp only [apply_rankings] at h
    split at h
    · exact push acc h (fun hacc => Or.inl hacc)
    · next idx hid =>
      split at h
      · next hrange =>
        split at h
        · next a' hget =>
          refine push _ h (fun hacc => ?_)
          rcases List.mem_append.mp hacc with h1 | h2
          · exact Or.inl h1
          · exact Or.inr ⟨r, by simp, idx, hid, hrange.1, hrange.2, a', hget,
              by simpa using h2⟩
        · exact push acc h (fun hacc => Or.inl hacc)
      · exact push acc h (fun hacc => Or.inl hacc)

/-- Claim C4: when there are more than `max_select` candidates and the
rerank collaborator errors, or its parsed response contains an entry
without an integer id (a Python `TypeError` discarding the whole attempt),
the rerank output is exactly the input sorted by `similarity_score`
descending and truncated to `max_select`; that fallback is a sorted
permutation-prefix of the input of length at most `max_select`; and in the
successful-parse path every output element originates from an entry whose
id is in range (out-of-range entries are skipped). -/
theorem rerank_fallback_equivalence (as : List Candidate)
    (hlen : RAG_FINAL_SELECT_MAX < as.length) :
    (∀ e, rerank_with_llm as (Except.error e) = rerank_fallback as) ∧
    (∀ rankings, (∃ r ∈ rankings, r.id = none) →
      rerank_with_llm as (Except.ok rankings) = rerank_fallback as) ∧
    rerank_fallback as = (sortDescBy simKey as).take RAG_FINAL_SELECT_MAX ∧
    (sortDescBy simKey as).Perm as ∧
    (sortDescBy simKey as).Pairwise
      (fun a b => b.similarity_score ≤ a.similarity_score) ∧
    (rerank_fallback as).length ≤ RAG_FINAL_SELECT_MAX ∧
    (∀ rankings, (∀ r ∈ rankings, r.id.isSome) →
      ∀ b ∈ rerank_with_llm as (Except.ok rankings),
        ∃ r ∈ rankings, ∃ i : Int, r.id = some i ∧ 0 ≤ i ∧
          i < (as.length : Int) ∧ ∃ a', as.get? i.toNat = some a' ∧
            b = { a' with llm_score := some (r.score.getD (1/2)),
                          llm_reason := some (r.reason.getD "") }) := by
  have hnotle : ¬ (as.length ≤ RAG_FINAL_SELECT_MAX) := by omega
  refine ⟨?_, ?_, rfl, sortDescBy_perm simKey as, ?_, ?_, ?_⟩
  · intro e
    simp [rerank_with_llm, hnotle]
  · intro rankings hex
    obtain ⟨r, hr, hid⟩ := hex
    have hall : rankings.all (fun r => r.id.isSome) = false := by
      cases hb : rankings.all (fun r => r.id.isSome) with
      | false => rfl
      | true =>
        have := List.all_eq_true.mp hb r hr
        rw [hid] at this
        simp at this
    simp [rerank_with_llm, hnotle, hall]
  · simpa [simKey] using sortDescBy_sorted simKey as
  · exact List.length_take_le _ _
  · intro rankings hall b hb
    have hall' : rankings.all (fun r => r.id.isSome) = true :=
      List.all_eq_true.mpr hall
    simp only [rerank_with_llm, if_neg hnotle, hall', if_true] at hb
    rcases apply_rankings_origin as rankings [] b hb with h | h
    · exact absurd h (List.not_mem_nil b)
    · exact h

/-- Claim C4 witness: the fallback equality at a concrete pool of eleven
candidates, once for a collaborator error and once for an unparsable entry. -/
theorem rerank_fallback_equivalence_witness :
    rerank_with_llm elevenCands (Except.error "timeout") = rerank_fallback elevenCands ∧
    rerank_with_llm elevenCands
      (Except.ok [{ id := none, score := none, reason := none }]) =
      rerank_fallback elevenCands :=
  ⟨(rerank_fallback_equivalence elevenCands (by decide)).1 "timeout",
   (rerank_fallback_equivalence elevenCands (by decide)).2.1
     [{ id := none, score := none, reason := none }]
     ⟨{ id := none, score := none, reason := none }, by simp, rfl⟩⟩

/-! ## Claim C5: duration filter -/

/-- Candidates with explicit durations, for the duration claims. -/
def durCands : List Candidate :=
  [{ mkCand "a" ["T"] 1 with duration := some 45 },
   { mkCand "b" ["T"] 2 with duration := none },
   { mkCand "c" ["T"] 3 with duration := some 30 }]

/-- Claim C5: the duration filter keeps a candidate iff its duration is
unknown or within the cap; hence every candidate with known duration
strictly above the cap is removed, every unknown-duration candidate
survives, and the surviving candidates form an order-preserving sublist. -/
theorem duration_filter_correct (as : List Candidate) (cap : Nat) :
    (∀ a, a ∈ filter_by_duration as cap ↔
      a ∈ as ∧ (a.duration = none ∨ ∃ d, a.duration = some d ∧ d ≤ cap)) ∧
    (∀ a ∈ as, ∀ d, a.duration = some d → cap < d →
      a ∉ filter_by_duration as cap) ∧
    (∀ a ∈ as, a.duration = none → a ∈ filter_by_duration as cap) ∧
    (filter_by_duration as cap).Sublist as := by
  have hiff : ∀ a : Candidate, a ∈ filter_by_duration as cap ↔
      a ∈ as ∧ (a.duration = none ∨ ∃ d, a.duration = some d ∧ d ≤ cap) := by
    intro a
    unfold filter_by_duration
    rw [List.mem_filter]
    constructor
    · rintro ⟨hmem, hp⟩
      refine ⟨hmem, ?_⟩
      cases hd : a.duration with
      | none => exact Or.inl rfl
      | some d =>
        rw [hd] at hp
        simp only at hp
        exact Or.inr ⟨d, rfl, by simpa using hp⟩
    · rintro ⟨hmem, hp⟩
      refine ⟨hmem, ?_⟩
      rcases hp with hd | ⟨d, hd, hle⟩
      · rw [hd]
      · rw [hd]
        simpa using hle
  refine ⟨hiff, ?_, ?_, List.filter_sublist as⟩
  · intro a _ d hd hlt hmem
    rcases (hiff a).mp hmem with ⟨_, hnone | ⟨d', hd', hle⟩⟩
    · rw [hd] at hnone; exact Option.noConfusion hnone
    · rw [hd] at hd'
      have : d = d' := Option.some.inj hd'
      omega
  · intro a ha hd
    exact (hiff a).mpr ⟨ha, Or.inl hd⟩

/-- Claim C5 witness: at cap `30`, the 45-minute candidate is removed and
the unknown-duration candidate survives. -/
theorem duration_filter_correct_witness :
    ({ mkCand "a" ["T"] 1 with duration := some 45 } : Candidate) ∉
      filter_by_duration durCands 30 ∧
    ({ mkCand "b" ["T"] 2 with duration := none } : Candidate) ∈
      filter_by_duration durCands 30 :=
  ⟨(duration_filter_correct durCands 30).2.1 _ (by decide) 45 rfl (by decide),
   (duration_filter_correct durCands 30).2.2.1 _ (by decide) rfl⟩

/-! ## Claims C3 and C8: the enhancement stage -/

/-- The minimal enhanced query the fallback branch of
`JDProcessorAgent.execute` builds from rule-based extraction alone. -/
def rule_fallback_enhanced (env : Env) (txt : String) : EnhancedQuery :=
  { original_query := txt
    cleaned_query := txt.take 500
    extracted_skills := env.ruleSkills txt
    extracted_duration := env.ruleDuration txt
    extracted_job_levels := env.ruleJobLevels txt
    required_test_types := infer_test_types (env.ruleSkills txt)
    key_requirements := (env.ruleSkills txt).take 5 }

/-- Claim C3: if the model extractor fails, the enhancement stage still
produces an `enhanced_query`, built from the rule-based extraction alone
with `required_test_types` inferred by the fixed heuristic; the heuristic
yields the knowledge category on technical keywords, the behavior category
on soft-skill keywords, and both when neither matched but some skill was
extracted. -/
theorem enhancement_fallback (env : Env) (s : GraphState) (e : String)
    (herr : env.enhanceLLM = Except.error e)
    (hne : effective_jd_text s ≠ "") :
    (jd_processor_execute env s).enhanced_query =
      some (rule_fallback_enhanced env (effective_jd_text s)) ∧
    (∀ skills : List String,
      (technical_keywords.any
        (fun k => strContains (lowerStr (String.intercalate " " skills)) k) = true →
        "Knowledge & Skills" ∈ infer_test_types skills) ∧
      (soft_keywords.any
        (fun k => strContains (lowerStr (String.intercalate " " skills)) k) = true →
        "Personality & Behavior" ∈ infer_test_types skills) ∧
      (technical_keywords.any
        (fun k => strContains (lowerStr (String.intercalate " " skills)) k) = false →
       soft_keywords.any
        (fun k => strContains (lowerStr (String.intercalate " " skills)) k) = false →
       skills ≠ [] →
        infer_test_types skills = ["Knowledge & Skills", "Personality & Behavior"])) := by
  constructor
  · simp only [jd_processor_execute, if_neg hne, herr]
    rfl
  · intro skills
    refine ⟨?_, ?_, ?_⟩
    · intro htech
      by_cases hsoft : soft_keywords.any
          (fun k => strContains (lowerStr (String.intercalate " " skills)) k) = true
      · simp [infer_test_types, htech, hsoft]
      · simp only [Bool.not_eq_true] at hsoft
        simp [infer_test_types, htech, hsoft]
    · intro hsoft
      by_cases htech : technical_keywords.any
          (fun k => strContains (lowerStr (String.intercalate " " skills)) k) = true
      · simp [infer_test_types, htech, hsoft]
      · simp only [Bool.not_eq_true] at htech
        simp [infer_test_types, htech, hsoft]
    · intro htech hsoft hskills
      cases skills with
      | nil => exact absurd rfl hskills
      | cons a t => simp [infer_test_types, htech, hsoft]

/-- A state whose query asks for a python developer, with no fetched JD. -/
def stRule : GraphState := create_initial_state "need a python developer" "s"

/-- Environment whose rule-based extractor finds the skill `Python`; the
model extractor is down. -/
def envRule : Env := { envDown with ruleSkills := fun _ => ["Python"] }

/-- Claim C3 witness: the fallback enhanced query at a concrete failing
environment. -/
theorem enhancement_fallback_witness :
    (jd_processor_execute envRule stRule).enhanced_query =
      some (rule_fallback_enhanced envRule (effective_jd_text stRule)) ∧
    "Knowledge & Skills" ∈ infer_test_types ["Python"] :=
  ⟨(enhancement_fallback envRule stRule "llm down" rfl (by decide)).1,
   ((enhancement_fallback envRule stRule "llm down" rfl (by decide)).2 ["Python"]).1
     (by decide)⟩

/-- Claim C8 (amended): the merged skills field is the deduplicated union of
the two extractors' lists under exact (case-sensitive) string equality, not
a case-normalized union; the merged duration is the model's value when that
value is truthy (present and nonzero), otherwise the rule-based value (a
model value of `0` is discarded); and the successful-enhancement branch
wires exactly these merges into the produced enhanced query. -/
theorem enhancement_merge :
    (∀ b l : List String,
      (∀ s, s ∈ merge_skills b l ↔ s ∈ b ∨ s ∈ l) ∧ (merge_skills b l).Nodup) ∧
    (∀ (db : Option Nat) (d : Nat), d ≠ 0 → merge_duration (some d) db = some d) ∧
    (∀ db : Option Nat, merge_duration none db = db) ∧
    (∀ db : Option Nat, merge_duration (some 0) db = db) ∧
    (∀ (env : Env) (s : GraphState) (enhanced : EnhancedQuery),
      env.enhanceLLM = Except.ok enhanced → effective_jd_text s ≠ "" →
      ∃ q, (jd_processor_execute env s).enhanced_query = some q ∧
        q.extracted_skills =
          merge_skills (env.ruleSkills (effective_jd_text s)) enhanced.extracted_skills ∧
        q.extracted_duration =
          merge_duration enhanced.extracted_duration
            (env.ruleDuration (effective_jd_text s))) := by
  refine ⟨?_, ?_, ?_, ?_, ?_⟩
  · intro b l
    exact ⟨fun s => by simp [merge_skills, List.mem_dedup, List.mem_append],
      List.nodup_dedup _⟩
  · intro db d hd
    simp [merge_duration, hd]
  · intro db
    simp [merge_duration]
  · intro db
    simp [merge_duration]
  · intro env s enhanced hok hne
    simp only [jd_processor_execute, if_neg hne, hok]
    exact ⟨_, rfl, rfl, rfl⟩

/-- Claim C8 counterexample: with baseline skill `Python` and model skill
`python`, the merged skills keep both spellings, so the field is not a
case-normalized union; and a model duration of `0` (present) is discarded
in favour of the rule-based value. -/
theorem enhancement_merge_counterexample :
    "Python" ∈ merge_skills ["Python"] ["python"] ∧
    "python" ∈ merge_skills ["Python"] ["python"] ∧
    (merge_skills ["Python"] ["python"]).toFinset ≠
      (spec_merged_skills ["Python"] ["python"]).toFinset ∧
    merge_duration (some 0) (some 45) = some 45 ∧
    merge_duration (some 0) (some 45) ≠ some 0 := by
  decide

/-- Claim C8 witness: the merge rules at concrete values and the
successful-enhancement branch at a concrete environment. -/
theorem enhancement_merge_witness :
    merge_duration (some 25) (some 45) = some 25 ∧
    ∃ q, (jd_processor_execute envEight stEight).enhanced_query = some q ∧
      q.extracted_skills =
        merge_skills (envEight.ruleSkills (effective_jd_text stEight))
          eqRetrieval.extracted_skills ∧
      q.extracted_duration =
        merge_duration eqRetrieval.extracted_duration
          (envEight.ruleDuration (effective_jd_text stEight)) :=
  ⟨enhancement_merge.2.1 (some 45) 25 (by decide),
   enhancement_merge.2.2.2.2 envEight stEight eqRetrieval rfl (by decide)⟩

/-! ## Claims C7 and C10: finalization -/

theorem dedupByUrl_all_urls {l : List Candidate} :
    ∀ b ∈ dedupByUrl l, b.url ≠ "" := by
  intro b hb
  rcases dedupFold_first l [] b hb with h | ⟨_, _, hne⟩
  · exact absurd h (List.not_mem_nil b)
  · exact hne

theorem dedupByUrl_nodup (l : List Candidate) :
    ((dedupByUrl l).map Candidate.url).Nodup :=
  dedupFold_nodup l [] (by simp)

theorem dedupByUrl_fixed (l : List Candidate) :
    dedupByUrl (dedupByUrl l) = dedupByUrl l := by
  have h := dedupFold_fixed (dedupByUrl l) [] (dedupByUrl_all_urls)
    (by simpa using dedupByUrl_nodup l)
  simpa [dedupByUrl] using h

/-- A recommendation list with a duplicated url and a url-less item. -/
def dupCands : List Candidate :=
  [mkCand "a" ["T"] 1, mkCand "" ["T"] 2, mkCand "a" ["T"] 3, mkCand "b" ["T"] 4]

/-- A terminal-bound state carrying `dupCands` as recommendations. -/
def stDup : GraphState :=
  { create_initial_state "q" "s" with final_recommendations := dupCands }

/-- Claim C7: finalization is a no-op on an empty recommendation list and
idempotent on every state; the dedup keeps an order-preserving sublist with
pairwise-distinct urls, every non-empty url of the input survives, and each
kept item is the first occurrence of its url in the input. -/
theorem finalization_dedup (s : GraphState) (l : List Candidate) :
    (s.final_recommendations = [] → format_output_node s = s) ∧
    format_output_node (format_output_node s) = format_output_node s ∧
    (dedupByUrl l).Sublist l ∧
    ((dedupByUrl l).map Candidate.url).Nodup ∧
    (∀ a ∈ l, a.url ≠ "" → ∃ b ∈ dedupByUrl l, b.url = a.url) ∧
    (∀ b ∈ dedupByUrl l, l.find? (fun x => x.url == b.url) = some b) := by
  refine ⟨?_, ?_, ?_, dedupByUrl_nodup l, ?_, ?_⟩
  · intro h
    simp [format_output_node, h]
  · by_cases h : s.final_recommendations.isEmpty
    · simp [format_output_node, h]
    · have h1 : format_output_node s =
          { s with final_recommendations := dedupByUrl s.final_recommendations } := by
        simp [format_output_node, h]
      rw [h1]
      by_cases h2 : (dedupByUrl s.final_recommendations).isEmpty
      · simp [format_output_node, h2]
      · simp only [format_output_node, h2, if_false, Bool.false_eq_true]
        rw [dedupByUrl_fixed]
  · obtain ⟨r, hr, hsub⟩ := dedupFold_append l []
    rw [dedupByUrl, hr]
    simpa using hsub
  · intro a ha hne
    exact dedupFold_covers l [] ha hne
  · intro b hb
    rcases dedupFold_first l [] b hb with h | ⟨hfind, _, _⟩
    · exact absurd h (List.not_mem_nil b)
    · exact hfind

/-- Claim C7 witness: a no-op on an empty list and survival of the first
occurrence of a duplicated url. -/
theorem finalization_dedup_witness :
    format_output_node (create_initial_state "q" "s") = create_initial_state "q" "s" ∧
    ∃ b ∈ dedupByUrl dupCands, b.url = (mkCand "a" ["T"] 1).url :=
  ⟨(finalization_dedup (create_initial_state "q" "s") []).1 rfl,
   (finalization_dedup (create_initial_state "q" "s") dupCands).2.2.2.2.1
     (mkCand "a" ["T"] 1) (by decide) (by decide)⟩

/-- Claim C10: after finalization every remaining recommendation has a
non-empty url: the dedup loop condition `if url and url not in seen_urls`
drops items whose url is missing or empty, not only duplicates. -/
theorem finalization_drops_urlless (s : GraphState) :
    ∀ a ∈ (format_output_node s).final_recommendations, a.url ≠ "" := by
  intro a ha
  by_cases h : s.final_recommendations.isEmpty
  · simp only [format_output_node, h, if_true] at ha
    rw [List.isEmpty_iff] at h
    rw [h] at ha
    exact absurd ha (List.not_mem_nil a)
  · simp only [format_output_node, h, if_false, Bool.false_eq_true] at ha
    exact dedupByUrl_all_urls a ha

/-- Claim C10 witness: a surviving item of a concrete run has a non-empty
url, and the url-less input item is gone from the output. -/
theorem finalization_drops_urlless_witness :
    (mkCand "a" ["T"] 1).url ≠ "" ∧
    mkCand "" ["T"] 2 ∉ (format_output_node stDup).final_recommendations :=
  ⟨finalization_drops_urlless stDup (mkCand "a" ["T"] 1) (by decide), by decide⟩

/-! ## Claims C6 and C9: terminal-state behavior of the workflow -/

theorem supervisor_preserves (env : Env) (s : GraphState) :
    (supervisor_execute env s).general_answer = s.general_answer ∧
    (supervisor_execute env s).final_recommendations = s.final_recommendations := by
  unfold supervisor_execute
  split
  · exact ⟨rfl, rfl⟩
  · split <;> exact ⟨rfl, rfl⟩

theorem extractor_after_fetch_preserves (s : GraphState) (urls : List String)
    (fr : FetchResult) :
    (extractor_after_fetch s urls fr).general_answer = s.general_answer ∧
    (extractor_after_fetch s urls fr).final_recommendations = s.final_recommendations := by
  unfold extractor_after_fetch
  split <;> exact ⟨rfl, rfl⟩

theorem jd_extractor_preserves (env : Env) (s : GraphState) :
    (jd_extractor_execute env s).general_answer = s.general_answer ∧
    (jd_extractor_execute env s).final_recommendations = s.final_recommendations := by
  unfold jd_extractor_execute
  split
  · exact extractor_after_fetch_preserves s _ _
  · split
    · split
      · exact extractor_after_fetch_preserves s _ _
      · exact ⟨rfl, rfl⟩
    · exact ⟨rfl, rfl⟩

theorem jd_processor_preserves (env : Env) (s : GraphState) :
    (jd_processor_execute env s).general_answer = s.general_answer ∧
    (jd_processor_execute env s).final_recommendations = s.final_recommendations := by
  unfold jd_processor_execute
  by_cases h : effective_jd_text s = ""
  · simp [h]
  · cases henh : env.enhanceLLM with
    | ok q => simp [h, henh]
    | error e => simp [h, henh]

theorem rag_preserves_answer (env : Env) (s : GraphState) :
    (rag_execute env s).general_answer = s.general_answer := by
  unfold rag_execute
  split
  · rfl
  · split <;> rfl

theorem general_execute_fields (env : Env) (s : GraphState) :
    (general_execute env s).final_recommendations = s.final_recommendations ∧
    (general_execute env s).general_answer.isSome = true := by
  unfold general_execute
  split
  · exact ⟨rfl, rfl⟩
  · split <;> exact ⟨rfl, rfl⟩

theorem end_node_fields (s : GraphState) :
    (end_node s).final_recommendations = s.final_recommendations ∧
    (end_node s).general_answer = some OUT_OF_CONTEXT_RESPONSE :=
  ⟨rfl, rfl⟩

theorem format_preserves_answer (s : GraphState) :
    (format_output_node s).general_answer = s.general_answer := by
  unfold format_output_node
  split <;> rfl

theorem format_empty (s : GraphState) (h : s.final_recommendations = []) :
    format_output_node s = s := by
  simp [format_output_node, h]

theorem route_stage_cases (env : Env) (s1 : GraphState)
    (ha : s1.general_answer = none) (hr : s1.final_recommendations = []) :
    (route_stage env s1).general_answer = none ∨
    (route_stage env s1).final_recommendations = [] := by
  unfold route_stage
  split
  · left
    rw [rag_preserves_answer, (jd_processor_preserves _ _).1]
    by_cases hu : has_url_edge env s1 = "extractor"
    · rw [if_pos hu, (jd_extractor_preserves _ _).1]
      exact ha
    · rw [if_neg hu]
      exact ha
  · right
    rw [(general_execute_fields env s1).1]
    exact hr
  · right
    rw [(end_node_fields s1).1]
    exact hr

/-- Claim C6 (amended): at every terminal state, at most one of
`final_recommendations` (non-empty) and `general_answer` is populated: a
terminal state with recommendations carries no general answer, and a
terminal state with a general answer carries no recommendations. The error
record is not exclusive with either: recovered fallbacks (empty-query note,
classification fallback, extraction and enhancement fallbacks, the
no-match retrieval note) record an error alongside a populated answer or
populated recommendations, so the spec's three-way exactly-one invariant
does not hold (see the counterexample). -/
theorem terminal_exclusivity (env : Env) (query session_id : String) :
    ((runWorkflow env query session_id).final_recommendations ≠ [] →
      (runWorkflow env query session_id).general_answer = none) ∧
    (∀ g, (runWorkflow env query session_id).general_answer = some g →
      (runWorkflow env query session_id).final_recommendations = []) := by
  have ha : (supervisor_execute env (create_initial_state query session_id)).general_answer
      = none := (supervisor_preserves env _).1
  have hr : (supervisor_execute env (create_initial_state query session_id)).final_recommendations
      = [] := (supervisor_preserves env _).2
  have hrun : runWorkflow env query session_id =
      format_output_node (route_stage env
        (supervisor_execute env (create_initial_state query session_id))) := rfl
  rcases route_stage_cases env _ ha hr with hA | hB
  · constructor
    · intro _
      rw [hrun, format_preserves_answer]
      exact hA
    · intro g hg
      rw [hrun, format_preserves_answer, hA] at hg
      exact Option.noConfusion hg
  · have hfix := format_empty _ hB
    constructor
    · intro hne
      rw [hrun, hfix] at hne
      exact absurd hB hne
    · intro g _
      rw [hrun, hfix]
      exact hB

set_option maxRecDepth 8192 in
/-- Claim C6 counterexample: the empty-query run terminates with the fixed
redirect answer populated and an error note recorded at once, so two of the
three outputs are "meaningfully populated" and the exactly-one invariant
(with its empty-and-no-error exception) is violated. -/
theorem terminal_exclusivity_counterexample :
    populated_count (runWorkflow envDown "" "s") = 2 ∧
    decide (spec_terminal_invariant (runWorkflow envDown "" "s")) = false ∧
    (runWorkflow envDown "" "s").general_answer = some OUT_OF_CONTEXT_RESPONSE ∧
    (runWorkflow envDown "" "s").error_message = some "Empty query" := by
  decide

set_option maxRecDepth 8192 in
/-- Claim C6 witness: a successful retrieval run has recommendations and the
theorem then forces an absent general answer. -/
theorem terminal_exclusivity_witness :
    (runWorkflow envEight "hiring a python developer" "s").general_answer = none :=
  (terminal_exclusivity envEight "hiring a python developer" "s").1 (by decide)

set_option maxRecDepth 8192 in
/-- Claim C9 (amended): for an empty query the pipeline short-circuits, for
every environment: intent `out_of_context` with confidence `1.0`, the fixed
redirect text as the terminal general answer, no recommendations — but an
error note `'Empty query'` is recorded, not "no error" as the spec states
(see the counterexample). -/
theorem empty_query_shortcircuit (env : Env) (session_id : String) :
    (runWorkflow env "" session_id).intent = some "out_of_context" ∧
    (runWorkflow env "" session_id).intent_confidence = some 1 ∧
    (runWorkflow env "" session_id).general_answer = some OUT_OF_CONTEXT_RESPONSE ∧
    (runWorkflow env "" session_id).final_recommendations = [] ∧
    (runWorkflow env "" session_id).error_message = some "Empty query" :=
  ⟨rfl, rfl, rfl, rfl, rfl⟩

set_option maxRecDepth 8192 in
/-- Claim C9 counterexample: the empty-query terminal state does record an
error (`'Empty query'`), contradicting the claim's "no error". -/
theorem empty_query_shortcircuit_counterexample :
    (runWorkflow envDown "" "s").error_message = some "Empty query" ∧
    (runWorkflow envDown "" "s").error_message.isSome = true := by
  decide
